import Mathlib

/-
Shallow embedding of the bigbigint arbitrary-precision integer class
(BigBigInt.h / BigBigInt.cpp).

Representation notes.  A bigbigint owns a heap buffer of
num_bytes = 4 * length bytes holding the magnitude in big-endian byte
order, plus a flags byte whose low bit (BBI_NEGATIVE) is the sign.  We
model the buffer contents as a big-endian list of byte values (each
meant to be < 256) and the sign flag as a Bool.  The buffer address is
not part of the value; where the source converts the buffer pointer
itself to an integer (the cast operators) the address is taken as an
explicit parameter.  Loops of the source whose exit is data dependent
(the bitwise-or loop, the division scan and main loops) are embedded
with an explicit fuel argument; returning none / timeout means the
source loop has not exited within that fuel.
-/

structure BBI where
  bytes : List Nat
  neg : Bool
deriving DecidableEq

/-- magValue reads a big-endian byte list as the magnitude it denotes. -/
def magValue (bs : List Nat) : Nat :=
  bs.foldl (fun a b => a * 256 + b) 0

/-- intValue is the signed value: magnitude negated when the flag is set. -/
def intValue (s : BBI) : Int :=
  if s.neg then -(magValue s.bytes : Int) else (magValue s.bytes : Int)

/-- bytesBE w v is the w-byte big-endian encoding of v (mod 256 ^ w);
this is what REVERSE_BYTE_ORDER followed by memcpy produces for a
little-endian native integer. -/
def bytesBE : Nat → Nat → List Nat
  | 0, _ => []
  | w + 1, v => bytesBE w (v / 256) ++ [v % 256]

/-- wordsOf groups a big-endian byte list into 32-bit words, matching how
the source reads the buffer through a BBI_BASE_TYPE pointer and then
byte-reverses each word (REVERSE_BYTE_ORDER) before arithmetic. -/
def wordsOf : List Nat → List Nat
  | b0 :: b1 :: b2 :: b3 :: rest =>
      (((b0 * 256 + b1) * 256 + b2) * 256 + b3) :: wordsOf rest
  | _ => []

/-- rawWordBytes writes 32-bit words back into the buffer the way the
multiplication loop stores its accumulator: *p_tval = result with no
REVERSE_BYTE_ORDER, so on the little-endian reference configuration the
four bytes of each stored word land least significant first, even
though the buffer as a whole is in big-endian word order. -/
def rawWordBytes : List Nat → List Nat
  | [] => []
  | w :: ws =>
      w % 256 :: (w / 2 ^ 8) % 256 :: (w / 2 ^ 16) % 256 :: (w / 2 ^ 24) % 256
        :: rawWordBytes ws

/-- sigWords counts the words of the buffer that remain once leading
zero words are stripped. -/
def sigWords (s : BBI) : Nat :=
  ((wordsOf s.bytes).dropWhile (fun w => w == 0)).length

/-- bbiAssignInt is ASSIGN_OP_BODY_INT_TYPES: clear the flags, set the
negative bit and take the absolute value when the argument is negative,
zero-fill the buffer, then copy the w native bytes of the value in
big-endian order into the low-order end of a numBytes buffer. -/
def bbiAssignInt (numBytes w : Nat) (v : Int) : BBI :=
  ⟨List.replicate (numBytes - w) 0 ++ bytesBE w v.natAbs, decide (v < 0)⟩

/-- bbiAssign is operator=(const bigbigint&): straight byte copy when the
byte counts match, full replacement (capacity included) when the source
is wider, and low-order copy with high-order zero fill when the
destination is wider; the flags are copied in every case. -/
def bbiAssign (dst src : BBI) : BBI :=
  if dst.bytes.length = src.bytes.length then ⟨src.bytes, src.neg⟩
  else if dst.bytes.length < src.bytes.length then src
  else ⟨List.replicate (dst.bytes.length - src.bytes.length) 0 ++ src.bytes, src.neg⟩

/-- bbiUpsize is _upsize(_length + 1): the buffer grows by one word and
the old magnitude moves to the low-order end behind zero fill. -/
def bbiUpsize (s : BBI) : BBI :=
  ⟨List.replicate 4 0 ++ s.bytes, s.neg⟩

/-- bbiNegOp is the unary operator-: a copy with the BBI_NEGATIVE flag
toggled, the magnitude untouched (note: this also sets the flag on a
zero magnitude). -/
def bbiNegOp (s : BBI) : BBI :=
  ⟨s.bytes, !s.neg⟩

/-- padFront pads a buffer with high-order zero bytes up to n bytes,
which is what assigning into a wider freshly constructed temporary does. -/
def padFront (n : Nat) (s : BBI) : List Nat :=
  List.replicate (n - s.bytes.length) 0 ++ s.bytes

/-- memcmpBytes is memcmp over byte lists: first differing byte decides. -/
def memcmpBytes : List Nat → List Nat → Ordering
  | x :: xs, y :: ys =>
      if x < y then .lt else if y < x then .gt else memcmpBytes xs ys
  | _, _ => .eq

/-- bbiCmp is the shared body of the bigbigint-vs-bigbigint comparison
operators: the shorter operand is copied into a temporary of the longer
length (zero padded in front) and the two buffers are compared with
memcmp.  The sign flags are never consulted. -/
def bbiCmp (a b : BBI) : Ordering :=
  if b.bytes.length > a.bytes.length then
    memcmpBytes (padFront b.bytes.length a) b.bytes
  else if a.bytes.length > b.bytes.length then
    memcmpBytes a.bytes (padFront a.bytes.length b)
  else
    memcmpBytes a.bytes b.bytes

/-- bbiLtB is operator<(bigbigint). -/
def bbiLtB (a b : BBI) : Bool := bbiCmp a b == .lt

/-- bbiGtB is operator>(bigbigint). -/
def bbiGtB (a b : BBI) : Bool := bbiCmp a b == .gt

/-- bbiEqB is operator==(bigbigint). -/
def bbiEqB (a b : BBI) : Bool := bbiCmp a b == .eq

/-- bbiEqInt is the operator==(int) member: the int is assigned into a
temporary of this buffer size and the buffers compared with memcmp. -/
def bbiEqInt (s : BBI) (v : Int) : Bool :=
  memcmpBytes s.bytes (bbiAssignInt s.bytes.length 4 v).bytes == .eq

/-- bbiLtInt is the operator<(int) member: comparing against zero only
reads the negative flag; otherwise the int is assigned into a temporary
and the buffers compared with memcmp. -/
def bbiLtInt (s : BBI) (v : Int) : Bool :=
  if v == 0 then s.neg
  else memcmpBytes s.bytes (bbiAssignInt s.bytes.length 4 v).bytes == .lt

/-- addLoop is the shared byte loop of addition and subtraction: walk
both operands from the least significant byte while both have bytes
left, adding with a running carry; each step stores the low byte and
keeps result div 256 as the carry.  Returns the stored bytes (least
significant first) and the final carry. -/
def addLoop : List Nat → List Nat → Nat → List Nat × Nat
  | x :: xs, y :: ys, c =>
      let r := c + x + y
      let p := addLoop xs ys (r / 256)
      (r % 256 :: p.1, p.2)
  | _, _, c => ([], c)

/-- addCarry is the carry left over after the byte loop of operator+. -/
def addCarry (a b : BBI) : Nat :=
  (addLoop a.bytes.reverse b.bytes.reverse 0).2

/-- bbiAddSame is the same-sign path of operator+(bigbigint): the result
temporary has the longer capacity and is zeroed, the byte loop fills its
low-order end, and a leftover carry grows the buffer by one word with
the carry stored in that word (at its least significant byte). -/
def bbiAddSame (a b : BBI) : BBI :=
  let n := max a.bytes.length b.bytes.length
  let p := addLoop a.bytes.reverse b.bytes.reverse 0
  let body := List.replicate (n - p.1.length) 0 ++ p.1.reverse
  if 0 < p.2 then ⟨0 :: 0 :: 0 :: p.2 % 256 :: body, a.neg⟩
  else ⟨body, a.neg⟩

/-- onesComp is the ONES_COMPLEMENT operation: complement every stored byte
(equal to complementing every stored word, since words are bytes). -/
def onesComp (bs : List Nat) : List Nat :=
  bs.map (fun x => 255 - x % 256)

/-- endAround is the end-around-carry loop of operator-: propagate the
carry from the least significant byte upward, stopping as soon as a step
no longer overflows a byte. -/
def endAround (c : Nat) : List Nat → List Nat
  | [] => []
  | x :: xs =>
      let r := c + x
      if r ≤ 255 then r :: xs
      else r % 256 :: endAround (r / 256) xs

/-- bbiSubCore is the positive-minus-positive core of
operator-(bigbigint): copy the subtrahend into a temporary of the longer
capacity carrying the flags of the minuend, complement it, add the
minuend byte-wise with carry into it, then either add the end-around
carry back in, or, when there is no carry, complement the bytes again
and flip the sign flag. -/
def bbiSubCore (a b : BBI) : BBI :=
  let n := max a.bytes.length b.bytes.length
  let tcomp := onesComp (padFront n b)
  let p := addLoop a.bytes.reverse tcomp.reverse 0
  let tAfter := List.take (n - a.bytes.length) tcomp ++ p.1.reverse
  if p.2 = 0 then ⟨onesComp tAfter, !a.neg⟩
  else ⟨(endAround p.2 tAfter.reverse).reverse, a.neg⟩

/-- bbiAddFull is operator+(bigbigint) with its sign dispatch.  When
exactly one operand is negative the source executes
this = PlusVal - (-this) (or this = this - (-PlusVal)) and returns
this, so the left operand is overwritten; the pair returned here is
(returned value, state of the left operand after the call). -/
def bbiAddFull (a b : BBI) : BBI × BBI :=
  if a.neg && !b.neg then
    let r := bbiAssign a (bbiSubCore b (bbiNegOp a))
    (r, r)
  else if !a.neg && b.neg then
    let r := bbiAssign a (bbiSubCore a (bbiNegOp b))
    (r, r)
  else (bbiAddSame a b, a)

/-- bbiSub is operator-(bigbigint) with its sign dispatch; every mixed or
negative case reduces to a same-sign addition or to the core with both
operands made positive, so the left operand is never mutated here. -/
def bbiSub (a b : BBI) : BBI :=
  if !a.neg && b.neg then bbiAddSame a (bbiNegOp b)
  else if a.neg && b.neg then bbiSubCore (bbiNegOp b) (bbiNegOp a)
  else if a.neg && !b.neg then bbiAddSame a (bbiNegOp b)
  else bbiSubCore a b

/-- mulInner is the inner loop of operator*(bigbigint): one word m of the
multiplier times the multiplicand words (least significant first),
accumulated into the running result words with a 64-bit accumulator;
the carry remaining when the multiplicand is exhausted is dropped, as
the source resets the accumulator at the top of the outer loop. -/
def mulInner (m : Nat) : List Nat → List Nat → Nat → List Nat
  | x :: xs, t :: ts, c =>
      let r := c + m * x + t
      r % 2 ^ 32 :: mulInner m xs ts (r / 2 ^ 32)
  | [], ts, _ => ts
  | _ :: _, [], _ => []

/-- mulOuter walks the multiplier words least significant first; word j
accumulates into the result starting at result word j. -/
def mulOuter : List Nat → List Nat → List Nat → List Nat
  | [], _, ts => ts
  | m :: ms, xs, ts =>
      match mulInner m xs ts 0 with
      | [] => []
      | t0 :: trest => t0 :: mulOuter ms xs trest

/-- bbiMul is operator*(const bigbigint&): the longer operand (ties go to
this) is the multiplicand, the result temporary has the summed capacity
and is zeroed, and the negative flag is set exactly when one operand is
negative, even when the product magnitude is zero.  The operand words
are read through REVERSE_BYTE_ORDER, and the accumulator is both read
from and stored into the result buffer raw (no reversal), which keeps
the loop arithmetic consistent word-wise but leaves every stored result
word with its bytes least significant first in the buffer
(rawWordBytes), so a nonzero product magnitude disagrees with the
big-endian convention the rest of the class reads the buffer by. -/
def bbiMul (a b : BBI) : BBI :=
  let pick := if b.bytes.length > a.bytes.length then (b, a) else (a, b)
  let xs := (wordsOf pick.1.bytes).reverse
  let ms := (wordsOf pick.2.bytes).reverse
  let t := mulOuter ms xs (List.replicate ((a.bytes.length + b.bytes.length) / 4) 0)
  ⟨rawWordBytes t.reverse, a.neg != b.neg⟩

/-- bbiMulEq is operator*=: the source body is this = this + PlusVal
followed by return this, so it adds instead of multiplying (the
operator+ call may itself overwrite this in the mixed-sign case,
which the pair from bbiAddFull accounts for). -/
def bbiMulEq (a b : BBI) : BBI :=
  let p := bbiAddFull a b
  bbiAssign p.2 p.1

/-- shlAssemble is the byte-assembly loop of operator<<: each output
byte takes two adjacent input bytes into a 64-bit accumulator, shifts
by the sub-byte amount, and keeps the byte below the top one; the last
input byte is paired with nothing. -/
def shlAssemble (sv : Nat) : List Nat → List Nat
  | [] => []
  | [x] => [((((x * 256) <<< sv) % 2 ^ 64) >>> 8) % 256]
  | x :: y :: rest =>
      (((((x * 256 + y) <<< sv) % 2 ^ 64) >>> 8) % 256) :: shlAssemble sv (y :: rest)

/-- bbiShl is operator<<(unsigned long).  The source computes the
sub-byte shift as Shift - 1 % 8, which by operator precedence is
Shift - 1, not (Shift - 1) % 8; so the memcpy fast path is taken only
for Shift = 1 and the assembly path shifts by Shift - 1 bits.  The
result temporary is zeroed first, so its flag is clear.  (Defined for
Shift ≥ 1; at Shift = 0 the source feeds a negative shift amount to a
native shift, which has no defined behaviour.) -/
def bbiShl (s : BBI) (n : Nat) : BBI :=
  let offset := n / 8
  let sv := n - 1 % 8
  if sv = 0 then
    ⟨s.bytes.drop offset ++ List.replicate (min offset s.bytes.length) 0, false⟩
  else
    ⟨shlAssemble sv (s.bytes.drop offset)
       ++ List.replicate (min offset s.bytes.length) 0, false⟩

/-- orLoop is the byte loop of operator|(bigbigint):
for(i = 0; tVal._num_bytes; i++) writes the byte-wise or into the
result; the loop condition reads the never-changing byte count, so it
can only exit when the count is zero.  Reads past the operand buffers
(a heap overrun in the source) are modelled as zero; the lemmas proved
about this loop do not depend on those values.  Fuel bounds the
iterations; none means the loop has not exited. -/
def orLoop (a b : List Nat) : List Nat → Nat → Nat → Option (List Nat)
  | _, _, 0 => none
  | t, i, fuel + 1 =>
      if t.length ≠ 0 then
        orLoop a b (t.set i (a.getD i 0 ||| b.getD i 0)) (i + 1) fuel
      else some t

/-- bbiOr is operator|(bigbigint): the result temporary has the left
capacity and is zeroed before the loop runs. -/
def bbiOr (a b : BBI) (fuel : Nat) : Option BBI :=
  (orLoop a.bytes b.bytes (List.replicate a.bytes.length 0) 0 fuel).map
    (fun t => ⟨t, false⟩)

/-- castFixedWidth is CAST_OPERATOR_FUNCTION for a w-byte integer type:
tmp_var = (T)(first_byte + (num_bytes - sizeof(T))) converts the buffer
POINTER itself to T, so the result is the pointer value truncated to
the type width; the stored magnitude bytes are never read.  addr is the
buffer address.  When the negative flag is set the source negates the
value (modular for the unsigned types modelled here). -/
def castFixedWidth (w addr : Nat) (s : BBI) : Nat :=
  let t := (addr + (s.bytes.length - w)) % 2 ^ (8 * w)
  if s.neg then (2 ^ (8 * w) - t) % 2 ^ (8 * w) else t

/-- DivOutcome is the observable result of _perform_integral_division:
fatal is the exit(199) path, timeout means a source loop has not exited
within the fuel, ok carries quotient and remainder. -/
inductive DivOutcome where
  | fatal : DivOutcome
  | timeout : DivOutcome
  | ok : BBI → BBI → DivOutcome
deriving DecidableEq

/-- divScan is the leading-zero scan of _perform_integral_division:
while the top bit of the first dividend byte is clear, execute
dividend = dividend << 1 and count bits and bytes shifted off. -/
def divScan : BBI → Nat → Nat → Nat → Option (BBI × Nat × Nat)
  | _, _, _, 0 => none
  | d, bits, byts, fuel + 1 =>
      if d.bytes.headD 0 &&& 128 ≠ 0 then some (d, bits, byts)
      else
        let d2 := bbiAssign d (bbiShl d 1)
        let bits2 := bits + 1
        if bits2 = 8 then divScan d2 0 (byts + 1) fuel
        else divScan d2 bits2 byts fuel

/-- divMain is the main restoring loop of _perform_integral_division:
per bit, shift a dividend bit into the remainder (through the shift and
or operators), tentatively subtract the divisor, keep the subtraction
and set the quotient bit when the result is negative by flag, and grow
the quotient by a word when its top bit becomes set.  The source
computes the incoming bit as (first byte and 0x80) >> 8, which is
always zero. -/
def divMain (divisor : BBI) : BBI → BBI → BBI → Nat → Nat → Nat → DivOutcome
  | _, _, _, _, _, 0 => .timeout
  | dividend, quot, rem, byts, bits, fuel + 1 =>
      if byts < dividend.bytes.length then
        let nextBit := (dividend.bytes.headD 0 &&& 128) >>> 8
        let rem1 := bbiAssign rem (bbiShl rem 1)
        match bbiOr rem1 (bbiAssignInt rem1.bytes.length 4 (nextBit : Int)) fuel with
        | none => .timeout
        | some orRes =>
          let rem2 := bbiAssign rem1 orRes
          let subVal := bbiSub rem2 divisor
          let dividend2 := bbiAssign dividend (bbiShl dividend 1)
          let quot1 := bbiAssign quot (bbiShl quot 1)
          match (if bbiLtInt subVal 0 then
                   bbiOr quot1 (bbiAssignInt quot1.bytes.length 4 1) fuel
                 else some quot1) with
          | none => .timeout
          | some orQ =>
            let quot2 := if bbiLtInt subVal 0 then bbiAssign quot1 orQ else quot1
            let rem3 := if bbiLtInt subVal 0 then bbiAssign rem2 subVal else rem2
            let quot3 := if quot2.bytes.headD 0 &&& 128 ≠ 0 then bbiUpsize quot2 else quot2
            let bits2 := bits + 1
            if bits2 = 8 then divMain divisor dividend2 quot3 rem3 (byts + 1) 0 fuel
            else divMain divisor dividend2 quot3 rem3 byts bits2 fuel
      else .ok quot rem

/-- bbiDivision is _perform_integral_division: quotient and remainder
start at zero in fresh minimum-capacity buffers; a zero divisor is the
fatal exit(199) path, checked before anything else; then the degenerate
cases, then the scan and the main loop on the by-value dividend copy. -/
def bbiDivision (dividend divisor : BBI) (fuel : Nat) : DivOutcome :=
  let rem0 := bbiAssignInt 8 4 0
  let quot0 := bbiAssignInt 8 4 0
  if bbiEqInt divisor 0 then .fatal
  else if bbiGtB divisor dividend then .ok quot0 (bbiAssign rem0 dividend)
  else if bbiEqB divisor dividend then .ok (bbiAssignInt 8 4 1) rem0
  else if bbiEqInt dividend 1 then .ok (bbiAssign quot0 dividend) rem0
  else if bbiEqInt dividend 0 then .ok quot0 rem0
  else
    match divScan dividend 0 0 fuel with
    | none => .timeout
    | some (d2, bits, byts) => divMain divisor d2 quot0 rem0 byts bits fuel

/-- bbi100 is a bigbigint holding 100 in the minimum two-word capacity. -/
def bbi100 : BBI := bbiAssignInt 8 4 100

/-- bbi7 is a bigbigint holding 7 in the minimum two-word capacity. -/
def bbi7 : BBI := bbiAssignInt 8 4 7

/-- bbiShlDemo is a two-significant-word value, 2 ^ 32 + 1. -/
def bbiShlDemo : BBI := ⟨[0, 0, 0, 1, 0, 0, 0, 1], false⟩

/-
Theorems.
-/

theorem bytesBE_length : ∀ w v : Nat, (bytesBE w v).length = w := by
  intro w
  induction w with
  | zero => intro v; rfl
  | succ n ih => intro v; simp [bytesBE, ih]

theorem assignInt_ofNat_len (v : Nat) :
    (bbiAssignInt 8 8 (v : Int)).bytes.length = 8 := by
  simp [bbiAssignInt, bytesBE_length]

theorem assignInt_ofNat_neg (v : Nat) :
    (bbiAssignInt 8 8 (v : Int)).neg = false := by
  have h : ¬((v : Int) < 0) := Int.not_lt.mpr (Int.natCast_nonneg v)
  simp [bbiAssignInt, h]

/-- Claim C1: assigning a representable non-negative 64-bit value into a
bigbigint and casting back is claimed to be the identity.  In the
source the cast operator converts the buffer pointer itself to the
integer type and never reads the stored bytes, so the cast result is
the (truncated) buffer address, independent of the assigned value; for
a buffer at address 0 the round trip of 5 returns 0. -/
theorem claim_C1_cast_reads_address_not_bytes :
    (∀ addr v w : Nat,
      castFixedWidth 8 addr (bbiAssignInt 8 8 (v : Int)) = addr % 2 ^ 64
      ∧ castFixedWidth 8 addr (bbiAssignInt 8 8 (v : Int))
          = castFixedWidth 8 addr (bbiAssignInt 8 8 (w : Int)))
    ∧ castFixedWidth 8 0 (bbiAssignInt 8 8 5) ≠ 5 := by
  refine ⟨fun addr v w => ⟨?_, ?_⟩, by decide⟩
  · simp [castFixedWidth, assignInt_ofNat_len, assignInt_ofNat_neg]
  · simp [castFixedWidth, assignInt_ofNat_len, assignInt_ofNat_neg]

/-- Claim C4 counterexample: adding non-negative 3 to negative 5 with the
pure binary operator overwrites the left operand (the source executes
this = PlusVal - (-this) and returns this), so the left operand is not
left unmodified. -/
theorem claim_C4_counterexample :
    (bbiAddFull (bbiAssignInt 8 4 (-5)) (bbiAssignInt 8 4 3)).2
      ≠ bbiAssignInt 8 4 (-5) := by decide

/-- Claim C4 amended: the pure binary operator a + b leaves a unmodified
exactly when the operand signs agree; when exactly one operand is
negative the operator stores the sum into a and returns that mutated
state (for -5 + 3 the left operand afterwards holds -2). -/
theorem claim_C4_amended :
    (∀ a b : BBI,
      (bbiAddFull a b).2 = if a.neg == b.neg then a else (bbiAddFull a b).1)
    ∧ intValue (bbiAddFull (bbiAssignInt 8 4 (-5)) (bbiAssignInt 8 4 3)).2 = -2 := by
  constructor
  · intro a b
    unfold bbiAddFull
    cases ha : a.neg <;> cases hb : b.neg <;> simp
  · decide

/-- Claim C5: a negative bigbigint is claimed to compare less than any
non-negative one.  The bigbigint-vs-bigbigint ordering operators only
memcmp the magnitude buffers and never consult the sign flags, so
-5 < 3 returns false and -5 > 3 returns true (magnitude 5 against 3). -/
theorem claim_C5_sign_flags_not_consulted :
    bbiLtB (bbiAssignInt 8 4 (-5)) (bbiAssignInt 8 4 3) = false
    ∧ bbiGtB (bbiAssignInt 8 4 (-5)) (bbiAssignInt 8 4 3) = true := by decide

/-- Claim C6: a shift by a whole multiple of 8 bits is claimed to be a
pure byte-aligned block copy, with a left shift by 8 equal to
multiplying by 256.  The source computes the sub-byte amount as
Shift - 1 % 8 = Shift - 1, so shifting the two-word value 2 ^ 32 + 1
left by 8 takes the assembly path with a 7-bit sub-shift and multiplies
by 2 ^ 15, which is neither the block copy nor multiplication by 256. -/
theorem claim_C6_shift8_is_not_block_copy :
    magValue (bbiShl bbiShlDemo 8).bytes = magValue bbiShlDemo.bytes * 2 ^ 15
    ∧ (bbiShl bbiShlDemo 8).bytes ≠ bbiShlDemo.bytes.drop 1 ++ [0]
    ∧ magValue (bbiShl bbiShlDemo 8).bytes ≠ 256 * magValue bbiShlDemo.bytes := by
  decide

/-- Claim C8: zero magnitude is claimed to always carry a clear negative
flag.  Unary negation of zero toggles the flag to set, and the product
of negative 5 with zero has zero magnitude with the negative flag set
(the sign is the plain XOR of the operand flags), so the code produces
negative zeros. -/
theorem claim_C8_code_produces_negative_zero :
    (bbiNegOp (bbiAssignInt 8 4 0)).neg = true
    ∧ magValue (bbiMul (bbiAssignInt 8 4 (-5)) (bbiAssignInt 8 4 0)).bytes = 0
    ∧ (bbiMul (bbiAssignInt 8 4 (-5)) (bbiAssignInt 8 4 0)).neg = true := by decide

/-- Claim C9: the compound a *= v is claimed to agree with a * v.  The
source body of operator*= is this = this + PlusVal, so 2 *= 3 leaves 5,
while the pure product 2 * 3 leaves a buffer whose magnitude under the
class conventions is 6 * 2 ^ 24 (the low word 6 is stored with its
bytes unreversed); the two results disagree however the product buffer
is read. -/
theorem claim_C9_compound_multiply_adds :
    magValue (bbiMulEq (bbiAssignInt 8 4 2) (bbiAssignInt 8 4 3)).bytes = 5
    ∧ magValue (bbiMul (bbiAssignInt 8 4 2) (bbiAssignInt 8 4 3)).bytes = 6 * 2 ^ 24
    ∧ magValue (bbiMulEq (bbiAssignInt 8 4 2) (bbiAssignInt 8 4 3)).bytes
        ≠ magValue (bbiMul (bbiAssignInt 8 4 2) (bbiAssignInt 8 4 3)).bytes := by
  decide

theorem orLoop_no_exit (a b : List Nat) :
    ∀ (fuel : Nat) (t : List Nat) (i : Nat), t ≠ [] → orLoop a b t i fuel = none := by
  intro fuel
  induction fuel with
  | zero => intro t i _; rfl
  | succ f ih =>
    intro t i h
    have hlen : t.length ≠ 0 := by simpa [List.length_eq_zero] using h
    simp only [orLoop, if_pos hlen]
    apply ih
    have : (t.set i (a.getD i 0 ||| b.getD i 0)).length ≠ 0 := by
      simpa [List.length_set] using hlen
    simpa [List.length_eq_zero] using this

/-- Claim C10: the byte loop of the bitwise-or operator is claimed to
terminate after processing exactly the bytes of the result.  Its exit
condition is the never-changing byte count of the result buffer, so for
any operand with a non-empty buffer (the minimum capacity is two words)
the loop never exits, whatever iteration bound it is given. -/
theorem claim_C10_or_loop_never_exits (a b : BBI) (fuel : Nat)
    (h : a.bytes ≠ []) : bbiOr a b fuel = none := by
  unfold bbiOr
  rw [orLoop_no_exit a.bytes b.bytes fuel (List.replicate a.bytes.length 0) 0 ?_]
  · rfl
  · intro hc
    have := congrArg List.length hc
    simp at this
    exact h this

theorem claim_C10_witness :
    bbi100.bytes ≠ [] ∧ bbiOr bbi100 bbi7 5 = none :=
  ⟨by decide, claim_C10_or_loop_never_exits bbi100 bbi7 5 (by decide)⟩

theorem memcmp_zeros : ∀ xs ys : List Nat,
    (∀ x ∈ xs, x = 0) → (∀ y ∈ ys, y = 0) → memcmpBytes xs ys = .eq := by
  intro xs
  induction xs with
  | nil => intro ys _ _; rfl
  | cons x xs ih =>
    intro ys hx hy
    cases ys with
    | nil => rfl
    | cons y ys =>
      have hx0 : x = 0 := hx x (by simp)
      have hy0 : y = 0 := hy y (by simp)
      simp only [memcmpBytes, hx0, hy0]
      rw [if_neg (by omega), if_neg (by omega)]
      exact ih ys (fun z hz => hx z (by simp [hz])) (fun z hz => hy z (by simp [hz]))

theorem assignInt_zero_all_zero (n : Nat) :
    ∀ y ∈ (bbiAssignInt n 4 0).bytes, y = 0 := by
  intro y hy
  have h4 : bytesBE 4 (0 : Int).natAbs = [0, 0, 0, 0] := by decide
  simp only [bbiAssignInt, h4, List.mem_append, List.mem_replicate, List.mem_cons,
    List.not_mem_nil] at hy
  rcases hy with h | h
  · exact h.2
  · rcases h with h | h | h | h | h
    all_goals first | exact h | exact absurd h (by simp)

/-- Claim C7: dividing by a zero-magnitude divisor takes the fatal
exit(199) path of _perform_integral_division before any quotient work:
the zero test is the first check and the function never reaches the
quotient loop, so no quotient is ever produced. -/
theorem claim_C7_divide_by_zero_is_fatal (a d : BBI) (fuel : Nat)
    (h : ∀ x ∈ d.bytes, x = 0) : bbiDivision a d fuel = .fatal := by
  have hz : bbiEqInt d 0 = true := by
    unfold bbiEqInt
    rw [memcmp_zeros _ _ h (assignInt_zero_all_zero _)]
    rfl
  simp only [bbiDivision, hz, if_true]

theorem claim_C7_witness :
    (∀ x ∈ ((⟨List.replicate 8 0, false⟩ : BBI)).bytes, x = 0)
    ∧ bbiDivision bbi100 ⟨List.replicate 8 0, false⟩ 3 = .fatal :=
  ⟨by decide, claim_C7_divide_by_zero_is_fatal bbi100 ⟨List.replicate 8 0, false⟩ 3 (by decide)⟩

theorem divScan_100_no_exit :
    ∀ (fuel bits byts : Nat), divScan bbi100 bits byts fuel = none := by
  intro fuel
  induction fuel with
  | zero => intro bits byts; rfl
  | succ f ih =>
    intro bits byts
    have htop : ¬(bbi100.bytes.headD 0 &&& 128 ≠ 0) := by decide
    have hshift : bbiAssign bbi100 (bbiShl bbi100 1) = bbi100 := by decide
    simp only [divScan, if_neg htop, hshift]
    split
    · exact ih 0 (byts + 1)
    · exact ih (bits + 1) byts

/-- Claim C2: division is claimed to produce quotient and remainder with
a = q * b + r, with 100 / 7 yielding 14 remainder 2.  Because the shift
operator computes its sub-byte amount as Shift - 1 % 8 = Shift - 1,
dividend << 1 is an exact copy of the dividend, so the leading-zero
scan of _perform_integral_division never finds a set top bit for
dividend 100 (its first buffer byte is 0) and never exits: dividing 100
by 7 runs forever and produces no quotient at all, for every iteration
bound. -/
theorem claim_C2_division_100_by_7_never_returns :
    ∀ fuel : Nat, bbiDivision bbi100 bbi7 fuel = .timeout := by
  intro fuel
  have h1 : bbiEqInt bbi7 0 = false := by decide
  have h2 : bbiGtB bbi7 bbi100 = false := by decide
  have h3 : bbiEqB bbi7 bbi100 = false := by decide
  have h4 : bbiEqInt bbi100 1 = false := by decide
  have h5 : bbiEqInt bbi100 0 = false := by decide
  simp only [bbiDivision, h1, h2, h3, h4, h5, Bool.false_eq_true, if_false,
    divScan_100_no_exit fuel 0 0]

theorem addLoop_len : ∀ (xs ys : List Nat) (c : Nat),
    (addLoop xs ys c).1.length = min xs.length ys.length := by
  intro xs
  induction xs with
  | nil => intro ys c; cases ys <;> simp [addLoop]
  | cons x xs ih =>
    intro ys c
    cases ys with
    | nil => simp [addLoop]
    | cons y ys =>
      simp only [addLoop, List.length_cons, ih]
      omega

theorem addLoop_carry_le : ∀ (xs ys : List Nat) (c : Nat),
    (∀ x ∈ xs, x < 256) → (∀ y ∈ ys, y < 256) → c ≤ 1 →
    (addLoop xs ys c).2 ≤ 1 := by
  intro xs
  induction xs with
  | nil => intro ys c _ _ hc; cases ys <;> simpa [addLoop] using hc
  | cons x xs ih =>
    intro ys c hx hy hc
    cases ys with
    | nil => simpa [addLoop] using hc
    | cons y ys =>
      simp only [addLoop]
      apply ih ys
      · exact fun z hz => hx z (by simp [hz])
      · exact fun z hz => hy z (by simp [hz])
      · have hx0 : x < 256 := hx x (by simp)
        have hy0 : y < 256 := hy y (by simp)
        omega

/-- Claim C3: when the same-sign byte addition of operator+ leaves a
carry past the most significant byte of the result buffer, the buffer
is grown by one word (four bytes beyond the longer operand capacity)
and the carry is stored in that new most significant word; concretely,
0xFFFFFFFF + 1 equals 0x1 0000 0000 occupying two significant words. -/
theorem claim_C3_carry_grows_one_word (a b : BBI)
    (ha : ∀ x ∈ a.bytes, x < 256) (hb : ∀ x ∈ b.bytes, x < 256)
    (hs : a.neg = b.neg) (hc : 0 < addCarry a b) :
    ((bbiAddFull a b).1.bytes.length = max a.bytes.length b.bytes.length + 4
      ∧ (wordsOf (bbiAddFull a b).1.bytes).headD 0 = addCarry a b)
    ∧ (magValue (bbiAddFull (bbiAssignInt 8 4 4294967295) (bbiAssignInt 8 4 1)).1.bytes
         = 4294967296
       ∧ sigWords (bbiAddFull (bbiAssignInt 8 4 4294967295) (bbiAssignInt 8 4 1)).1 = 2) := by
  refine ⟨?_, by decide⟩
  have hfull : bbiAddFull a b = (bbiAddSame a b, a) := by
    unfold bbiAddFull
    rw [hs]
    cases hbn : b.neg <;> simp
  have hcarry : addCarry a b ≤ 1 := by
    apply addLoop_carry_le
    · exact fun z hz => ha z (List.mem_reverse.mp hz)
    · exact fun z hz => hb z (List.mem_reverse.mp hz)
    · omega
  unfold addCarry at hc hcarry ⊢
  rw [hfull]
  simp only [bbiAddSame, if_pos hc]
  constructor
  · simp only [List.length_cons, List.length_append, List.length_replicate,
      List.length_reverse, addLoop_len]
    omega
  · simp only [wordsOf, List.headD]
    omega

theorem claim_C3_witness :
    0 < addCarry ⟨List.replicate 8 255, false⟩ ⟨List.replicate 8 255, false⟩
    ∧ (bbiAddFull ⟨List.replicate 8 255, false⟩ ⟨List.replicate 8 255, false⟩).1.bytes.length
        = 12
    ∧ (wordsOf (bbiAddFull ⟨List.replicate 8 255, false⟩
        ⟨List.replicate 8 255, false⟩).1.bytes).headD 0
        = addCarry ⟨List.replicate 8 255, false⟩ ⟨List.replicate 8 255, false⟩ := by
  have h := claim_C3_carry_grows_one_word ⟨List.replicate 8 255, false⟩
    ⟨List.replicate 8 255, false⟩ (by decide) (by decide) (by decide) (by decide)
  refine ⟨by decide, ?_, h.1.2⟩
  have := h.1.1
  simpa using this
